import Mathlib

/-!
Verification of the twitter-wordlist-compiler core against its specification.

The Rust sources (src/libtwc/src/util.rs, src/libtwc/src/lib.rs,
src/libtwc/src/tweet_compiler.rs) are shallowly embedded: strings are Lean
`String` (a list of Unicode scalar values, matching Rust `char` iteration),
`HashMap` is embedded as an association list with unique keys (the
well-formedness predicates `WFw`/`WFl` state key uniqueness), and the
counter type `u64` is embedded as `Nat` (counts only ever grow by small
increments here, far below 2^64, and no wrapping arithmetic occurs in the
source).
-/

namespace Twc

/-- Membership of a character in a pattern set, embedding Rust's
`&[char]` pattern / `str::contains(char)` checks. -/
def charIn (set : String) (c : Char) : Bool :=
  decide (c ∈ set.data)

/-- Modelled from the spec: Rust `char::is_whitespace` (Unicode property
`White_Space`), used by `cleanup_word`'s first `trim_matches`. The Unicode
`White_Space` set is fixed and listed here in full. -/
def isWhitespaceChar (c : Char) : Bool :=
  let n := c.toNat
  (0x9 ≤ n && n ≤ 0xD) || n == 0x20 || n == 0x85 || n == 0xA0 || n == 0x1680 ||
  (0x2000 ≤ n && n ≤ 0x200A) || n == 0x2028 || n == 0x2029 || n == 0x202F ||
  n == 0x205F || n == 0x3000

/-- The `QUOTATION_MARKS` constant of `cleanup_word` in src/libtwc/src/util.rs. -/
def QUOTATION_MARKS : String := "„“‟”‟’’❝❞〝〞〟＂\x27‚‘❛❜`\""

/-- The `SYMBOLS` constant of `cleanup_word` in src/libtwc/src/util.rs. -/
def SYMBOLS_UTIL : String := "!$%^&*()_-+=<,>.?/\x7b\x7d[]\\|~\t\r\n"

/-- The `SYMBOLS` constant of `cleanup_word` in src/libtwc/src/lib.rs
(this copy differs from the util.rs copy: it adds the ASCII apostrophe,
double quote and backtick, and there is no quotation-mark trim pass). -/
def SYMBOLS_LIB : String := "!$%^&*()_-+=<,>.?/\x27\"\x7b[\x7d]\\|`~\t\r\n"

/-- The `SYMBOLS` constant of `is_only_symbols` inside `word_qualifies`
(identical in util.rs and lib.rs). -/
def SYMBOLS_QUALIFY : String := "!@#$%^&*()_-+=<,>.?/\x27\"\x7b[\x7d]\\|`~\t\r\n"

/-- Predicate for the whitespace trim pass. -/
def wsP (c : Char) : Bool := isWhitespaceChar c

/-- Predicate for the quotation-mark trim pass of util.rs. -/
def quoteP (c : Char) : Bool := charIn QUOTATION_MARKS c

/-- Predicate for the symbol trim pass of util.rs. -/
def symUtilP (c : Char) : Bool := charIn SYMBOLS_UTIL c

/-- Predicate for the symbol trim pass of lib.rs. -/
def symLibP (c : Char) : Bool := charIn SYMBOLS_LIB c

/-- Strip the longest run of characters satisfying `p` from the front of a
character list (the front half of Rust `str::trim_matches`). -/
def trimLeft (p : Char → Bool) : List Char → List Char
  | [] => []
  | c :: cs => if p c then trimLeft p cs else c :: cs

/-- Strip the longest run of characters satisfying `p` from the back. -/
def trimRight (p : Char → Bool) (cs : List Char) : List Char :=
  (trimLeft p cs.reverse).reverse

/-- Embedding of Rust `str::trim_matches` with a character-set pattern:
strip matching characters from both ends. -/
def trimBoth (p : Char → Bool) (cs : List Char) : List Char :=
  trimRight p (trimLeft p cs)

/-- `cleanup_word` from src/libtwc/src/util.rs: trim whitespace, then
quotation marks, then symbols, each from both ends. -/
def cleanup_word (w : String) : String :=
  ⟨trimBoth symUtilP (trimBoth quoteP (trimBoth wsP w.data))⟩

/-- `cleanup_word` from src/libtwc/src/lib.rs: trim whitespace, then the
lib.rs symbol set, from both ends (no separate quotation pass). -/
def cleanupWordLib (w : String) : String :=
  ⟨trimBoth symLibP (trimBoth wsP w.data)⟩

example : cleanup_word "\"hello,\"" = "hello" := by decide
example : cleanupWordLib "\"hello,\"" = "hello" := by decide
example : cleanup_word "! x !" = " x " := by decide
example : cleanup_word " x " = "x" := by decide
example : cleanup_word "!\x27x\x27!" = "\x27x\x27" := by decide
example : cleanupWordLib "!\x27x\x27!" = "x" := by decide
example : cleanup_word "„x" = "x" := by decide

/-- An ordinary ASCII letter (`A`–`Z` or `a`–`z`), as scalar-value bounds. -/
def asciiLetter (c : Char) : Bool :=
  (65 ≤ c.toNat && c.toNat ≤ 90) || (97 ≤ c.toNat && c.toNat ≤ 122)

/-- An ASCII digit, as scalar-value bounds. -/
def asciiDigit (c : Char) : Bool :=
  48 ≤ c.toNat && c.toNat ≤ 57

/-- Modelled from the spec: Rust `char::is_numeric` (Unicode category N)
used by the "Numeric strings" arm; modelled as the ASCII digits, which is
exact on all inputs exercised here. -/
def isNumericChar (c : Char) : Bool := asciiDigit c

/-- Rust `char::is_ascii_control`: `U+0000`–`U+001F` and `U+007F`. -/
def isControlChar (c : Char) : Bool :=
  c.toNat < 0x20 || c.toNat == 0x7F

/-- Modelled from the spec: the zalgo crate's combining-character test
(`zalgo::is_zalgo(char)`), i.e. "combining/diacritical marks"; modelled as
the Combining Diacritical Marks block `U+0300`–`U+036F`. -/
def isZalgoChar (c : Char) : Bool :=
  0x300 ≤ c.toNat && c.toNat ≤ 0x36F

/-- The first arm of `word_qualifies`: `s.is_empty() || s.chars().count() == 1`. -/
def isShort (s : String) : Bool :=
  s.data.isEmpty || (s.data.length == 1)

/-- Rust `str::starts_with(char)`. -/
def startsWithChar (c : Char) (s : String) : Bool :=
  match s.data with
  | [] => false
  | c0 :: _ => c0 == c

/-- Rust `str::ends_with(char)`. -/
def endsWithChar (c : Char) (s : String) : Bool :=
  match s.data.getLast? with
  | none => false
  | some c0 => c0 == c

/-- Tail of a URL scheme: letters, digits, `+`, `-`, `.` up to a `:`. -/
def schemeTail : List Char → Bool
  | [] => false
  | c :: cs =>
    if c == ':' then true
    else (asciiLetter c || asciiDigit c || c == '+' || c == '-' || c == '.') && schemeTail cs

/-- Modelled from the spec: `url::Url::parse(s).is_ok()` ("a well-formed
absolute URL per standard URL grammar"); modelled as: the string starts
with a URL scheme — an ASCII letter followed by letters, digits, `+`, `-`
or `.` — terminated by `:`. Strings without a scheme always fail
`Url::parse` (relative URL without base), which is what every claim here
exercises. -/
def urlParseOk (s : String) : Bool :=
  match s.data with
  | [] => false
  | c :: cs => asciiLetter c && schemeTail cs

/-- The `URL_PREFIXES` constant of `is_url`. -/
def urlStarts : List String := ["http://", "https://", "ftp://", "sftp://", "data:"]

/-- `is_url` inside `word_qualifies`: proper URL or recognizable URL start. -/
def is_url (s : String) : Bool :=
  urlParseOk s || urlStarts.any (fun p => p.data.isPrefixOf s.data)

/-- `is_emoji` inside `word_qualifies`: every scalar in the Fitzpatrick
modifier range `U+1F3FB`–`U+1F3FF` or the emoji block `U+1F600`–`U+1F64F`. -/
def is_emoji (s : String) : Bool :=
  s.data.all (fun c =>
    (0x1F3FB ≤ c.toNat && c.toNat ≤ 0x1F3FF) || (0x1F600 ≤ c.toNat && c.toNat ≤ 0x1F64F))

/-- `is_only_symbols` inside `word_qualifies`. -/
def is_only_symbols (s : String) : Bool :=
  s.data.all (fun c => charIn SYMBOLS_QUALIFY c)

/-- `is_zalgo` inside `word_qualifies`: the share of combining characters
exceeds the ratio 0.75. The Rust float comparison
`count as f64 / len as f64 > 0.75` is embedded as `3 * len < 4 * count`;
the two agree on every list: for `len > 0` by field arithmetic, and for
`len = 0` Rust computes `NaN > 0.75`, which is `false`, as is `0 < 0`. -/
def is_zalgo (s : String) : Bool :=
  decide (3 * s.data.length < 4 * s.data.countP isZalgoChar)

/-- `word_qualifies` (identical in util.rs and lib.rs): the ordered match
over rejection heuristics. -/
def word_qualifies (s : String) : Bool :=
  if isShort s then false
  else if startsWithChar '@' s then false
  else if startsWithChar '#' s then false
  else if is_url s then false
  else if s.data.all isNumericChar then false
  else if is_emoji s then false
  else if s.data.all isControlChar then false
  else if startsWithChar '&' s && endsWithChar ';' s then false
  else if is_only_symbols s then false
  else if is_zalgo s then false
  else if s == "RT" then false
  else true

/-- The conjunction of the guards that precede the Zalgo arm of
`word_qualifies`: the Zalgo ratio is evaluated exactly when this holds. -/
def zalgoGuardReached (s : String) : Bool :=
  !isShort s && !startsWithChar '@' s && !startsWithChar '#' s && !is_url s &&
  !s.data.all isNumericChar && !is_emoji s && !s.data.all isControlChar &&
  !(startsWithChar '&' s && endsWithChar ';' s) && !is_only_symbols s

example : word_qualifies "@alice" = false := by decide
example : word_qualifies "alice" = true := by decide
example : word_qualifies "http://x.co" = false := by decide
example : word_qualifies "x.co" = true := by decide
example : word_qualifies "RT" = false := by decide
example : word_qualifies "Rt" = true := by decide
example : word_qualifies "😀" = false := by decide
example : word_qualifies "hello" = true := by decide
example : word_qualifies "@bob" = false := by decide
example : word_qualifies "„x" = true := by decide
example : word_qualifies "" = false := by decide
example : zalgoGuardReached "ab" = true := by decide

/-- Modelled from the spec: the Record data model of src/libtwc/src/tweet.rs
(the file is not under src/) — "a language tag and a text body", with the
field names `lang` and `text` used by its consumers in lib.rs and
tweet_compiler.rs. -/
structure Tweet where
  lang : String
  text : String
deriving DecidableEq, Repr

/-- `WordMap = HashMap<String, u64>`, embedded as an association list;
uniqueness of keys is the predicate `WFw`. -/
abbrev WordMap := List (String × Nat)

/-- `LanguageMap = HashMap<String, WordMap>`, embedded likewise. -/
abbrev LanguageMap := List (String × WordMap)

/-- HashMap lookup of a count, with the `or_default` reading: absent keys
count as 0. -/
def WMget : WordMap → String → Nat
  | [], _ => 0
  | (k, v) :: rest, w => if k = w then v else WMget rest w

/-- `*map.entry(w).or_default() += n`: add `n` to the count of `w`,
inserting the entry on first sight. -/
def insertAdd : WordMap → String → Nat → WordMap
  | [], w, n => [(w, n)]
  | (k, v) :: rest, w, n =>
    if k = w then (k, v + n) :: rest else (k, v) :: insertAdd rest w n

/-- HashMap lookup of a language's word map, with the `or_default`
reading: absent languages map to the empty word map. -/
def LMget : LanguageMap → String → WordMap
  | [], _ => []
  | (k, v) :: rest, lang => if k = lang then v else LMget rest lang

/-- `map.entry(lang).or_default()` followed by an in-place mutation `f` of
that entry's word map. -/
def updateLang : LanguageMap → String → (WordMap → WordMap) → LanguageMap
  | [], lang, f => [(lang, f [])]
  | (k, v) :: rest, lang, f =>
    if k = lang then (k, f v) :: rest else (k, v) :: updateLang rest lang f

/-- The inner merge loop of `process_tweets`: for each `(word, count)` of
the local map, `*global.entry(word).or_default() += count`. -/
def mergeWordMap (g l : WordMap) : WordMap :=
  l.foldl (fun acc p => insertAdd acc p.1 p.2) g

/-- The outer merge loop of `process_tweets`: for each `(language, word_map)`
of the local map, fold its counts into the global entry for that language. -/
def mergeLanguageMap (g l : LanguageMap) : LanguageMap :=
  l.foldl (fun acc p => updateLang acc p.1 (fun wm => mergeWordMap wm p.2)) g

/-- Merging a sequence of local maps, in order, into an initially empty
global map. -/
def mergeAll (ls : List LanguageMap) : LanguageMap :=
  ls.foldl mergeLanguageMap []

/-- The count stored for `(lang, w)`, reading absence as 0. -/
def cnt (m : LanguageMap) (lang w : String) : Nat :=
  WMget (LMget m lang) w

/-- Keys of an association list. -/
def keysOf {α : Type} (m : List (String × α)) : List String := m.map Prod.fst

/-- Well-formedness of an embedded `WordMap`: keys are unique, as in a
`HashMap`. -/
abbrev WFw (m : WordMap) : Prop := (keysOf m).Nodup

/-- Well-formedness of an embedded `LanguageMap`: language keys are unique
and every word map is well-formed. -/
abbrev WFl (m : LanguageMap) : Prop := (keysOf m).Nodup ∧ ∀ p ∈ m, WFw p.2

/-- Rust `str::split(' ')`: the pieces between space characters, keeping
empty pieces (so `""` yields `[""]`, and runs of spaces yield empties). -/
def splitOnChar (sep : Char) : List Char → List (List Char)
  | [] => [[]]
  | c :: cs =>
    let r := splitOnChar sep cs
    if c == sep then [] :: r
    else
      match r with
      | [] => [[c]]
      | g :: gs => (c :: g) :: gs

/-- Rust `text.split(' ')` as a list of strings. -/
def rawTokens (text : String) : List String :=
  (splitOnChar ' ' text.data).map (fun l => (⟨l⟩ : String))

/-- The token stream of one tweet's text in `process_tweets`:
`text.split(' ').map(cleanup_word).filter(word_qualifies)`. -/
def tweetWords (text : String) : List String :=
  ((rawTokens text).map cleanup_word).filter word_qualifies

/-- One iteration of the grouping loop of `process_tweets`: count the
tweet's surviving words under its language entry. -/
def insertTweet (m : LanguageMap) (t : Tweet) : LanguageMap :=
  updateLang m t.lang (fun wm => (tweetWords t.text).foldl (fun w word => insertAdd w word 1) wm)

/-- The grouping loop of `process_tweets`: build the local per-file
`LanguageMap`, counting each surviving word under the tweet's language. -/
def processTweetsLocal (tweets : List Tweet) : LanguageMap :=
  tweets.foldl insertTweet []

/-- `process_tweets` (tweet_compiler.rs, and identically lib.rs): build the
local map, then merge it into the global map. -/
def process_tweets (tweets : List Tweet) (global : LanguageMap) : LanguageMap :=
  mergeLanguageMap global (processTweetsLocal tweets)

/-- `HashMap::remove(key)` on the embedded map. -/
def removeKey (m : WordMap) (k : String) : WordMap :=
  m.filter (fun q => decide (q.1 ≠ k))

/-- The per-language purge loop of `TweetCompiler::compile` /
`compile_word_map`, with the hard-coded threshold `100_u64` generalized to
a parameter `k` (the spec exposes the prune threshold as tunable): collect
every key whose count is below `k`, then remove the collected keys. -/
def pruneWordMap (k : Nat) (wm : WordMap) : WordMap :=
  ((wm.filter (fun q => decide (q.2 < k))).map Prod.fst).foldl removeKey wm

/-- The prune step over the whole global map: each language's word map is
purged in place; language entries themselves are untouched. -/
def pruneLanguageMap (k : Nat) (m : LanguageMap) : LanguageMap :=
  m.map (fun p => (p.1, pruneWordMap k p.2))

/-- Rust `str::lines`: split at `\n`, strip a final `\r` of each
newline-terminated line, no trailing empty line for a trailing newline. -/
def rustLines (s : String) : List String :=
  match s.data with
  | [] => []
  | cs =>
    let parts := splitOnChar '\n' cs
    let initChunks := parts.dropLast.map (fun l => if l.getLast? == some '\r' then l.dropLast else l)
    let lastChunk :=
      match parts.getLast? with
      | some [] => []
      | some l => [l]
      | none => []
    (initChunks ++ lastChunk).map (fun l => (⟨l⟩ : String))

/-- `read_file` (util.rs, and identically lib.rs). The `Except` argument
models the fallible external prelude — `OpenOptions::open` plus
`BzDecoder::read_to_string`, whose `?` operators propagate any I/O or
decompression error — and `decode` models `serde_json::from_str::<Tweet>`
on one line; `flat_map(.. .ok())` keeps the successfully decoded lines. -/
def read_file (decode : String → Option Tweet) :
    Except String String → Except String (List Tweet)
  | Except.error e => Except.error e
  | Except.ok contents => Except.ok ((rustLines contents).filterMap decode)

example :
    processTweetsLocal [⟨"en", "hello world hello"⟩, ⟨"en", "@bob hello"⟩] =
      [("en", [("hello", 3), ("world", 1)])] := by decide

example :
    pruneLanguageMap 2 (process_tweets [⟨"en", "hello world hello"⟩, ⟨"en", "@bob hello"⟩] []) =
      [("en", [("hello", 3)])] := by decide

example : rustLines "a\r\nb\nc\n" = ["a", "b", "c"] := by decide
example : rustLines "x\r" = ["x\r"] := by decide
example : rustLines "" = [] := by decide
example : rustLines "\n" = [""] := by decide

theorem keysOf_cons {α : Type} (p : String × α) (m : List (String × α)) :
    keysOf (p :: m) = p.1 :: keysOf m := rfl

theorem WMget_eq_zero : ∀ {m : WordMap} {k : String}, k ∉ keysOf m → WMget m k = 0 := by
  intro m
  induction m with
  | nil => intro k _; rfl
  | cons p rest ih =>
    intro k h
    rw [keysOf_cons, List.mem_cons] at h
    push_neg at h
    obtain ⟨k0, v⟩ := p
    simp only [WMget]
    rw [if_neg (fun hh => h.1 hh.symm)]
    exact ih h.2

theorem LMget_eq_nil : ∀ {m : LanguageMap} {k : String}, k ∉ keysOf m → LMget m k = [] := by
  intro m
  induction m with
  | nil => intro k _; rfl
  | cons p rest ih =>
    intro k h
    rw [keysOf_cons, List.mem_cons] at h
    push_neg at h
    obtain ⟨k0, v⟩ := p
    simp only [LMget]
    rw [if_neg (fun hh => h.1 hh.symm)]
    exact ih h.2

theorem WMget_insertAdd (m : WordMap) (k : String) (n : Nat) (w : String) :
    WMget (insertAdd m k n) w = WMget m w + (if k = w then n else 0) := by
  induction m with
  | nil =>
    simp only [insertAdd, WMget]
    by_cases h : k = w
    · simp [h]
    · simp [h]
  | cons p rest ih =>
    obtain ⟨k0, v⟩ := p
    simp only [insertAdd]
    by_cases h0 : k0 = k
    · subst h0
      simp only [if_pos rfl, WMget]
      by_cases hw : k0 = w
      · simp [hw]
      · simp [hw]
    · rw [if_neg h0]
      simp only [WMget]
      by_cases hw : k0 = w
      · have hkw : ¬ k = w := fun hh => h0 (hw.trans hh.symm)
        simp [hw, hkw]
      · simp [hw, ih]

theorem WMget_merge :
    ∀ (l g : WordMap), WFw l → ∀ w,
      WMget (mergeWordMap g l) w = WMget g w + WMget l w := by
  intro l
  induction l with
  | nil => intro g _ w; simp [mergeWordMap, WMget]
  | cons p rest ih =>
    intro g hl w
    obtain ⟨k0, v0⟩ := p
    simp only [WFw, keysOf_cons, List.nodup_cons] at hl
    have hstep : mergeWordMap g ((k0, v0) :: rest) = mergeWordMap (insertAdd g k0 v0) rest := rfl
    rw [hstep, ih (insertAdd g k0 v0) hl.2 w, WMget_insertAdd]
    simp only [WMget]
    by_cases hw : k0 = w
    · have hz : WMget rest w = 0 := WMget_eq_zero (by rw [← hw]; exact hl.1)
      rw [if_pos hw, if_pos hw, hz]
      omega
    · rw [if_neg hw, if_neg hw]
      omega

theorem LMget_updateLang :
    ∀ (m : LanguageMap) (lang : String) (f : WordMap → WordMap) (x : String),
      LMget (updateLang m lang f) x = if lang = x then f (LMget m lang) else LMget m x := by
  intro m
  induction m with
  | nil =>
    intro lang f x
    simp only [updateLang, LMget]
  | cons p rest ih =>
    intro lang f x
    obtain ⟨k, v⟩ := p
    simp only [updateLang]
    by_cases hk : k = lang
    · subst hk
      simp only [if_pos rfl, LMget, ih]
      by_cases hx : k = x
      · simp [hx]
      · simp [hx]
    · rw [if_neg hk]
      simp only [LMget, ih]
      by_cases hx : k = x
      · have hlx : ¬ lang = x := fun hh => hk (hx.trans hh.symm)
        simp [hx, hlx]
      · simp [hx, hk]

theorem cnt_mergeLanguageMap :
    ∀ (l g : LanguageMap), WFl l → ∀ lang w,
      cnt (mergeLanguageMap g l) lang w = cnt g lang w + cnt l lang w := by
  intro l
  induction l with
  | nil => intro g _ lang w; simp [mergeLanguageMap, cnt, LMget, WMget]
  | cons p rest ih =>
    intro g hl lang w
    obtain ⟨l0, wm0⟩ := p
    obtain ⟨hnd, hvals⟩ := hl
    rw [keysOf_cons, List.nodup_cons] at hnd
    have hrest : WFl rest := ⟨hnd.2, fun q hq => hvals q (List.mem_cons_of_mem _ hq)⟩
    have hwm0 : WFw wm0 := hvals (l0, wm0) (List.mem_cons_self _ _)
    have hstep : mergeLanguageMap g ((l0, wm0) :: rest) =
        mergeLanguageMap (updateLang g l0 (fun wm => mergeWordMap wm wm0)) rest := rfl
    rw [hstep, ih _ hrest lang w]
    unfold cnt
    rw [LMget_updateLang]
    by_cases h0 : l0 = lang
    · subst h0
      rw [if_pos rfl, WMget_merge wm0 (LMget g l0) hwm0 w]
      have h1 : LMget ((l0, wm0) :: rest) l0 = wm0 := by simp [LMget]
      have h2 : LMget rest l0 = [] := LMget_eq_nil hnd.1
      rw [h1, h2]
      simp only [WMget]
      omega
    · rw [if_neg h0]
      have h1 : LMget ((l0, wm0) :: rest) lang = LMget rest lang := by simp [LMget, h0]
      rw [h1]

theorem cnt_foldl_merge :
    ∀ (ls : List LanguageMap) (g : LanguageMap), (∀ L ∈ ls, WFl L) → ∀ lang w,
      cnt (ls.foldl mergeLanguageMap g) lang w =
        cnt g lang w + (ls.map (fun L => cnt L lang w)).sum := by
  intro ls
  induction ls with
  | nil => intro g _ lang w; simp
  | cons L rest ih =>
    intro g h lang w
    have hL : WFl L := h L (List.mem_cons_self _ _)
    have hrest : ∀ M ∈ rest, WFl M := fun M hM => h M (List.mem_cons_of_mem _ hM)
    simp only [List.foldl_cons, List.map_cons, List.sum_cons]
    rw [ih _ hrest lang w, cnt_mergeLanguageMap L g hL lang w]
    omega

theorem cnt_nil (lang w : String) : cnt [] lang w = 0 := rfl

theorem mem_keysOf {α : Type} {m : List (String × α)} {p : String × α} (h : p ∈ m) :
    p.1 ∈ keysOf m :=
  List.mem_map_of_mem Prod.fst h

theorem mem_removeKey {m : WordMap} {k : String} {p : String × Nat} :
    p ∈ removeKey m k ↔ p ∈ m ∧ p.1 ≠ k := by
  simp [removeKey, List.mem_filter]

theorem mem_foldl_removeKey :
    ∀ (ks : List String) (wm : WordMap) (p : String × Nat),
      p ∈ ks.foldl removeKey wm ↔ p ∈ wm ∧ p.1 ∉ ks := by
  intro ks
  induction ks with
  | nil => intro wm p; simp
  | cons k ks ih =>
    intro wm p
    simp only [List.foldl_cons]
    rw [ih, mem_removeKey, List.mem_cons]
    push_neg
    tauto

theorem WFw_eq_of_fst :
    ∀ (wm : WordMap), WFw wm → ∀ p ∈ wm, ∀ q ∈ wm, p.1 = q.1 → p = q := by
  intro wm
  induction wm with
  | nil => intro _ p hp; exact absurd hp (List.not_mem_nil p)
  | cons r rest ih =>
    intro h p hp q hq hpq
    simp only [WFw, keysOf_cons, List.nodup_cons] at h
    rcases List.mem_cons.mp hp with hp | hp
    · rcases List.mem_cons.mp hq with hq | hq
      · exact hp.trans hq.symm
      · exfalso
        apply h.1
        rw [show r.1 = q.1 from by rw [← hp, hpq]]
        exact mem_keysOf hq
    · rcases List.mem_cons.mp hq with hq | hq
      · exfalso
        apply h.1
        rw [show r.1 = p.1 from by rw [← hq, hpq]]
        exact mem_keysOf hp
      · exact ih h.2 p hp q hq hpq

theorem mem_pruneWordMap (k : Nat) (wm : WordMap) (hwf : WFw wm) (p : String × Nat) :
    p ∈ pruneWordMap k wm ↔ p ∈ wm ∧ k ≤ p.2 := by
  unfold pruneWordMap
  rw [mem_foldl_removeKey]
  constructor
  · rintro ⟨hp, hnk⟩
    refine ⟨hp, ?_⟩
    by_contra hlt
    push_neg at hlt
    exact hnk (List.mem_map_of_mem Prod.fst (List.mem_filter.mpr ⟨hp, by simpa using hlt⟩))
  · rintro ⟨hp, hk⟩
    refine ⟨hp, ?_⟩
    intro hmem
    rcases List.mem_map.mp hmem with ⟨q, hqf, hq1⟩
    have hq := List.mem_filter.mp hqf
    have hqp : q = p := WFw_eq_of_fst wm hwf q hq.1 p hp hq1
    have hlt : q.2 < k := by simpa using hq.2
    rw [hqp] at hlt
    omega

theorem keysOf_prune (k : Nat) (m : LanguageMap) :
    keysOf (pruneLanguageMap k m) = keysOf m := by
  induction m with
  | nil => rfl
  | cons p rest ih =>
    simp only [pruneLanguageMap, List.map_cons, keysOf_cons] at *
    rw [ih]

theorem pruneWordMap_eq_nil {k : Nat} {wm : WordMap} (h : ∀ q ∈ wm, q.2 < k) :
    pruneWordMap k wm = [] := by
  rw [List.eq_nil_iff_forall_not_mem]
  intro p hp
  unfold pruneWordMap at hp
  rw [mem_foldl_removeKey] at hp
  exact hp.2 (List.mem_map_of_mem Prod.fst (List.mem_filter.mpr ⟨hp.1, by simpa using h p hp.1⟩))

theorem LMget_prune :
    ∀ (k : Nat) (m : LanguageMap) (lang : String),
      LMget (pruneLanguageMap k m) lang = pruneWordMap k (LMget m lang) := by
  intro k m
  induction m with
  | nil => intro lang; rfl
  | cons p rest ih =>
    intro lang
    obtain ⟨l0, wm⟩ := p
    simp only [pruneLanguageMap, List.map_cons, LMget]
    by_cases h : l0 = lang
    · rw [if_pos h, if_pos h]
    · rw [if_neg h, if_neg h]
      exact ih lang

/-- C1: merging any finite collection of well-formed local `LanguageMap`s
into an initially empty global map gives, for every `(language, word)`
pair, the sum of that pair's counts over the locals; hence the counts are
invariant under permutation of the merge order, and merging the same local
map twice into a fresh global map doubles every count it contributes. -/
theorem merge_additive_commutative
    (Ls Ls2 : List LanguageMap) (hWF : ∀ L ∈ Ls, WFl L) (hperm : Ls.Perm Ls2)
    (lang w : String) :
    cnt (mergeAll Ls) lang w = (Ls.map (fun L => cnt L lang w)).sum
    ∧ cnt (mergeAll Ls2) lang w = cnt (mergeAll Ls) lang w
    ∧ ∀ L, WFl L → cnt (mergeAll [L, L]) lang w = 2 * cnt L lang w := by
  have hsum : ∀ (Ms : List LanguageMap), (∀ L ∈ Ms, WFl L) →
      cnt (mergeAll Ms) lang w = (Ms.map (fun L => cnt L lang w)).sum := by
    intro Ms hMs
    unfold mergeAll
    rw [cnt_foldl_merge Ms [] hMs lang w, cnt_nil]
    omega
  refine ⟨hsum Ls hWF, ?_, ?_⟩
  · have hWF2 : ∀ L ∈ Ls2, WFl L := fun L hL => hWF L (hperm.mem_iff.mpr hL)
    rw [hsum Ls2 hWF2, hsum Ls hWF]
    exact (List.Perm.sum_eq (hperm.map _)).symm
  · intro L hL
    have hexp : mergeAll [L, L] = mergeLanguageMap (mergeLanguageMap [] L) L := rfl
    rw [hexp, cnt_mergeLanguageMap L _ hL lang w, cnt_mergeLanguageMap L [] hL lang w, cnt_nil]
    omega

/-- A small concrete local map for witnesses. -/
def Lw1 : LanguageMap := [("en", [("a", 2)])]

/-- A second concrete local map for witnesses. -/
def Lw2 : LanguageMap := [("en", [("a", 3), ("b", 1)])]

/-- Witness for C1 at two concrete local maps and a transposition. -/
theorem merge_additive_commutative_witness :
    (∀ L ∈ [Lw1, Lw2], WFl L) ∧ List.Perm [Lw1, Lw2] [Lw2, Lw1] ∧
      (cnt (mergeAll [Lw1, Lw2]) "en" "a" = ([Lw1, Lw2].map (fun L => cnt L "en" "a")).sum
      ∧ cnt (mergeAll [Lw2, Lw1]) "en" "a" = cnt (mergeAll [Lw1, Lw2]) "en" "a"
      ∧ ∀ L, WFl L → cnt (mergeAll [L, L]) "en" "a" = 2 * cnt L "en" "a") :=
  ⟨by decide, List.Perm.swap Lw2 Lw1 [],
    merge_additive_commutative [Lw1, Lw2] [Lw2, Lw1] (by decide)
      (List.Perm.swap Lw2 Lw1 []) "en" "a"⟩

/-- C2: pruning with threshold `k` keeps exactly the entries with count
at least `k` — every survivor's count is `≥ k`, every removed entry had a
count `< k` in the table passed to prune — and acts independently on each
language's word map. -/
theorem prune_threshold_spec (k : Nat) (wm : WordMap) (hwf : WFw wm) :
    (∀ p ∈ pruneWordMap k wm, k ≤ p.2)
    ∧ (∀ p ∈ wm, p ∉ pruneWordMap k wm → p.2 < k)
    ∧ (∀ (m : LanguageMap) (lang : String),
        LMget (pruneLanguageMap k m) lang = pruneWordMap k (LMget m lang)) := by
  refine ⟨?_, ?_, ?_⟩
  · intro p hp
    exact ((mem_pruneWordMap k wm hwf p).mp hp).2
  · intro p hp hnp
    by_contra h
    push_neg at h
    exact hnp ((mem_pruneWordMap k wm hwf p).mpr ⟨hp, h⟩)
  · intro m lang
    exact LMget_prune k m lang

/-- Witness for C2 at a concrete two-entry table and threshold 100. -/
theorem prune_threshold_spec_witness :
    WFw [("a", 150), ("b", 50)] ∧
      ((∀ p ∈ pruneWordMap 100 [("a", 150), ("b", 50)], 100 ≤ p.2)
      ∧ (∀ p ∈ ([("a", 150), ("b", 50)] : WordMap),
          p ∉ pruneWordMap 100 [("a", 150), ("b", 50)] → p.2 < 100)
      ∧ (∀ (m : LanguageMap) (lang : String),
          LMget (pruneLanguageMap 100 m) lang = pruneWordMap 100 (LMget m lang))) :=
  ⟨by decide, prune_threshold_spec 100 [("a", 150), ("b", 50)] (by decide)⟩

/-- C9: pruning removes only word entries, never language entries — the
language key list is unchanged — and a language all of whose counts are
below the threshold stays present, mapped to the empty word map. -/
theorem prune_frame_languages (k : Nat) (m : LanguageMap) :
    keysOf (pruneLanguageMap k m) = keysOf m
    ∧ ∀ p ∈ m, (∀ q ∈ p.2, q.2 < k) → (p.1, ([] : WordMap)) ∈ pruneLanguageMap k m := by
  refine ⟨keysOf_prune k m, ?_⟩
  intro p hp hq
  have hmem : (p.1, pruneWordMap k p.2) ∈ pruneLanguageMap k m :=
    List.mem_map_of_mem _ hp
  rwa [pruneWordMap_eq_nil hq] at hmem

/-- Witness for C9 at a one-language table whose only count is below the
threshold. -/
theorem prune_frame_languages_witness :
    keysOf (pruneLanguageMap 100 [("en", [("a", 1)])]) = keysOf [("en", [("a", 1)])]
    ∧ ("en", ([] : WordMap)) ∈ pruneLanguageMap 100 [("en", [("a", 1)])] :=
  ⟨(prune_frame_languages 100 [("en", [("a", 1)])]).1,
    (prune_frame_languages 100 [("en", [("a", 1)])]).2 ("en", [("a", 1)]) (by decide)
      (by decide)⟩

/-- True when the first character (if any) does not satisfy `p`. -/
def headNot (p : Char → Bool) : List Char → Bool
  | [] => true
  | c :: _ => !(p c)

/-- True when neither edge character satisfies `p`. -/
def edgesNot (p : Char → Bool) (cs : List Char) : Bool :=
  headNot p cs && headNot p cs.reverse

theorem headNot_trimLeft (p : Char → Bool) : ∀ cs, headNot p (trimLeft p cs) = true := by
  intro cs
  induction cs with
  | nil => rfl
  | cons c cs ih =>
    simp only [trimLeft]
    by_cases h : p c
    · rw [if_pos h]
      exact ih
    · rw [if_neg h]
      simp [headNot, h]

theorem trimLeft_eq_self {p : Char → Bool} {cs : List Char} (h : headNot p cs = true) :
    trimLeft p cs = cs := by
  cases cs with
  | nil => rfl
  | cons c cs =>
    simp only [headNot, Bool.not_eq_true'] at h
    simp [trimLeft, h]

theorem trimLeft_suffix (p : Char → Bool) : ∀ cs, trimLeft p cs <:+ cs := by
  intro cs
  induction cs with
  | nil => exact List.suffix_refl []
  | cons c cs ih =>
    simp only [trimLeft]
    by_cases h : p c
    · rw [if_pos h]
      exact ih.trans (List.suffix_cons c cs)
    · rw [if_neg h]

theorem trimRight_eq_self {p : Char → Bool} {cs : List Char}
    (h : headNot p cs.reverse = true) : trimRight p cs = cs := by
  unfold trimRight
  rw [trimLeft_eq_self h, List.reverse_reverse]

theorem trimBoth_eq_self {p : Char → Bool} {cs : List Char} (h : edgesNot p cs = true) :
    trimBoth p cs = cs := by
  unfold trimBoth
  simp only [edgesNot, Bool.and_eq_true] at h
  rw [trimLeft_eq_self h.1]
  exact trimRight_eq_self h.2

theorem trimRight_reverse_head (p : Char → Bool) (cs : List Char) :
    headNot p (trimRight p cs).reverse = true := by
  unfold trimRight
  rw [List.reverse_reverse]
  exact headNot_trimLeft p cs.reverse

theorem trimRight_isPre (p : Char → Bool) (l : List Char) : trimRight p l <+: l := by
  unfold trimRight
  rcases trimLeft_suffix p l.reverse with ⟨t, ht⟩
  exact ⟨t.reverse, by rw [← List.reverse_append, ht, List.reverse_reverse]⟩

theorem headNot_of_isPre {p : Char → Bool} {l₁ l₂ : List Char} (hp : l₁ <+: l₂)
    (h : headNot p l₂ = true) : headNot p l₁ = true := by
  rcases hp with ⟨t, rfl⟩
  cases l₁ with
  | nil => rfl
  | cons c l => exact h

theorem edgesNot_trimBoth (p : Char → Bool) (cs : List Char) :
    edgesNot p (trimBoth p cs) = true := by
  unfold edgesNot
  rw [Bool.and_eq_true]
  constructor
  · exact headNot_of_isPre (trimRight_isPre p (trimLeft p cs)) (headNot_trimLeft p cs)
  · exact trimRight_reverse_head p (trimLeft p cs)

theorem mem_trimLeft {p : Char → Bool} {cs : List Char} {c : Char}
    (h : c ∈ trimLeft p cs) : c ∈ cs :=
  (trimLeft_suffix p cs).subset h

theorem mem_trimBoth {p : Char → Bool} {cs : List Char} {c : Char}
    (h : c ∈ trimBoth p cs) : c ∈ cs :=
  mem_trimLeft ((trimRight_isPre p (trimLeft p cs)).subset h)

theorem trimLeft_congr {p q : Char → Bool} :
    ∀ {cs : List Char}, (∀ c ∈ cs, p c = q c) → trimLeft p cs = trimLeft q cs := by
  intro cs
  induction cs with
  | nil => intro _; rfl
  | cons c cs ih =>
    intro h
    have hc := h c (List.mem_cons_self c cs)
    simp only [trimLeft, hc]
    by_cases hq : q c
    · simp only [if_pos hq]
      exact ih (fun d hd => h d (List.mem_cons_of_mem c hd))
    · simp only [if_neg hq]

theorem trimRight_congr {p q : Char → Bool} {cs : List Char}
    (h : ∀ c ∈ cs, p c = q c) : trimRight p cs = trimRight q cs := by
  unfold trimRight
  rw [trimLeft_congr (fun c hc => h c (List.mem_reverse.mp hc))]

theorem trimBoth_congr {p q : Char → Bool} {cs : List Char}
    (h : ∀ c ∈ cs, p c = q c) : trimBoth p cs = trimBoth q cs := by
  unfold trimBoth
  rw [trimLeft_congr h]
  exact trimRight_congr (fun c hc => h c (mem_trimLeft hc))

theorem edgesNot_of_all {p : Char → Bool} {cs : List Char}
    (h : ∀ c ∈ cs, p c = false) : edgesNot p cs = true := by
  unfold edgesNot
  rw [Bool.and_eq_true]
  constructor
  · cases hcs : cs with
    | nil => rfl
    | cons c l =>
      have hc := h c (by rw [hcs]; exact List.mem_cons_self c l)
      simp [headNot, hc]
  · cases hcs : cs.reverse with
    | nil => rfl
    | cons c l =>
      have hc : c ∈ cs := List.mem_reverse.mp (by rw [hcs]; exact List.mem_cons_self c l)
      simp [headNot, h c hc]

theorem headNot_or_split {p q : Char → Bool} {cs : List Char}
    (h : headNot (fun c => p c || q c) cs = true) :
    headNot p cs = true ∧ headNot q cs = true := by
  cases cs with
  | nil => exact ⟨rfl, rfl⟩
  | cons c l =>
    simp only [headNot, Bool.not_eq_true', Bool.or_eq_false_iff] at h
    simp [headNot, h.1, h.2]

/-- Characters the whitespace or quotation trim passes can strip. -/
def trimEdgeP (c : Char) : Bool := wsP c || quoteP c

/-- C4 counterexample: `cleanup_word` is not idempotent — on `"! x !"` the
symbol trim exposes an interior space at both edges, so a second
application strips further. -/
theorem cleanup_idempotent_counterexample :
    cleanup_word (cleanup_word "! x !") ≠ cleanup_word "! x !" := by decide

/-- C4 amended: `cleanup_word "\"hello,\"" = "hello"`, and `cleanup_word`
is idempotent on every string whose cleaned form has no whitespace or
quotation-mark character at either edge (in general the symbol trim can
expose such characters, and idempotence fails — see the counterexample). -/
theorem cleanup_idempotent_amended (s : String)
    (h : edgesNot trimEdgeP (cleanup_word s).data = true) :
    cleanup_word (cleanup_word s) = cleanup_word s
    ∧ cleanup_word "\"hello,\"" = "hello" := by
  refine ⟨?_, by decide⟩
  have hsplit : edgesNot wsP (cleanup_word s).data = true
      ∧ edgesNot quoteP (cleanup_word s).data = true := by
    unfold edgesNot at h ⊢
    rw [Bool.and_eq_true] at h
    have h1 := headNot_or_split (p := wsP) (q := quoteP) h.1
    have h2 := headNot_or_split (p := wsP) (q := quoteP) h.2
    rw [Bool.and_eq_true, Bool.and_eq_true]
    exact ⟨⟨h1.1, h2.1⟩, ⟨h1.2, h2.2⟩⟩
  have hsymEdges : edgesNot symUtilP (cleanup_word s).data = true :=
    edgesNot_trimBoth symUtilP (trimBoth quoteP (trimBoth wsP s.data))
  have hws : trimBoth wsP (cleanup_word s).data = (cleanup_word s).data :=
    trimBoth_eq_self hsplit.1
  have hqu : trimBoth quoteP (cleanup_word s).data = (cleanup_word s).data :=
    trimBoth_eq_self hsplit.2
  have hsym : trimBoth symUtilP (cleanup_word s).data = (cleanup_word s).data :=
    trimBoth_eq_self hsymEdges
  show (⟨trimBoth symUtilP (trimBoth quoteP (trimBoth wsP (cleanup_word s).data))⟩ : String)
      = cleanup_word s
  rw [hws, hqu, hsym]

/-- Witness for the amended C4 at a concrete input. -/
theorem cleanup_idempotent_amended_witness :
    edgesNot trimEdgeP (cleanup_word "!hello,!").data = true
    ∧ (cleanup_word (cleanup_word "!hello,!") = cleanup_word "!hello,!"
      ∧ cleanup_word "\"hello,\"" = "hello") :=
  ⟨by decide, cleanup_idempotent_amended "!hello,!" (by decide)⟩

theorem symUtil_sub_symLib : ∀ c ∈ SYMBOLS_UTIL.data, c ∈ SYMBOLS_LIB.data := by decide

theorem symLib_sub : ∀ c ∈ SYMBOLS_LIB.data,
    c ∈ SYMBOLS_UTIL.data ∨ c ∈ QUOTATION_MARKS.data := by decide

theorem symP_agree (c : Char) (hq : quoteP c = false) : symUtilP c = symLibP c := by
  unfold symUtilP symLibP charIn
  unfold quoteP charIn at hq
  rw [decide_eq_false_iff_not] at hq
  by_cases h1 : c ∈ SYMBOLS_UTIL.data
  · have h2 := symUtil_sub_symLib c h1
    simp [h1, h2]
  · by_cases h2 : c ∈ SYMBOLS_LIB.data
    · rcases symLib_sub c h2 with h3 | h3
      · exact absurd h3 h1
      · exact absurd h3 hq
    · simp [h1, h2]

/-- C8 counterexample: the two `cleanup_word` copies disagree, already on
the ASCII input `!'x'!` — the util.rs copy leaves `'x'` (apostrophes are
in its quotation pass, which runs before the symbol pass), the lib.rs
copy strips to `x`. -/
theorem cleanup_copies_counterexample :
    cleanup_word "!\x27x\x27!" ≠ cleanupWordLib "!\x27x\x27!" := by decide

/-- C8 amended: the two copies agree on every string containing no
quotation-mark character (ASCII apostrophe, double quote, backtick, or the
typographic variants of the util.rs set); in general they differ — see the
counterexample. -/
theorem cleanup_copies_amended (s : String) (h : ∀ c ∈ s.data, quoteP c = false) :
    cleanup_word s = cleanupWordLib s := by
  have hu : ∀ c ∈ trimBoth wsP s.data, quoteP c = false := fun c hc => h c (mem_trimBoth hc)
  have hq : trimBoth quoteP (trimBoth wsP s.data) = trimBoth wsP s.data :=
    trimBoth_eq_self (edgesNot_of_all hu)
  have hsym : trimBoth symUtilP (trimBoth wsP s.data) = trimBoth symLibP (trimBoth wsP s.data) :=
    trimBoth_congr (fun c hc => symP_agree c (hu c hc))
  show (⟨trimBoth symUtilP (trimBoth quoteP (trimBoth wsP s.data))⟩ : String)
      = ⟨trimBoth symLibP (trimBoth wsP s.data)⟩
  rw [hq, hsym]

/-- Witness for the amended C8 at a concrete quotation-free input. -/
theorem cleanup_copies_amended_witness :
    (∀ c ∈ (("!a!" : String)).data, quoteP c = false)
    ∧ cleanup_word "!a!" = cleanupWordLib "!a!" :=
  ⟨by decide, cleanup_copies_amended "!a!" (by decide)⟩

/-- The first post of the spec's end-to-end scenario. -/
def tweetA : Tweet := ⟨"en", "hello world hello"⟩

/-- The second post of the spec's end-to-end scenario. -/
def tweetB : Tweet := ⟨"en", "@bob hello"⟩

/-- C3 counterexample: the pipeline counts "hello" three times over the
two posts (twice in the first, once more in the second), so after pruning
with threshold 1 the count for `("en", "hello")` is not the claimed 2. -/
theorem pipeline_example_counterexample :
    cnt (pruneLanguageMap 1 (process_tweets [tweetA, tweetB] [])) "en" "hello" ≠ 2 := by decide

/-- C3 amended: the two posts yield `en -> (hello : 3, world : 1)` under
prune threshold 1 (the mention token `@bob` is dropped), and
`en -> (hello : 3)` under threshold 2. -/
theorem pipeline_example_amended :
    LMget (pruneLanguageMap 1 (process_tweets [tweetA, tweetB] [])) "en"
      = [("hello", 3), ("world", 1)]
    ∧ keysOf (pruneLanguageMap 1 (process_tweets [tweetA, tweetB] [])) = ["en"]
    ∧ LMget (pruneLanguageMap 2 (process_tweets [tweetA, tweetB] [])) "en" = [("hello", 3)]
    ∧ keysOf (pruneLanguageMap 2 (process_tweets [tweetA, tweetB] [])) = ["en"]
    ∧ word_qualifies (cleanup_word "@bob") = false := by decide

/-- ASCII lowercasing of a string, character by character. -/
def lowerStr (s : String) : String := ⟨s.data.map Char.toLower⟩

theorem mem_insertAdd :
    ∀ {m : WordMap} {k : String} {n : Nat} {q : String × Nat},
      q ∈ insertAdd m k n → q ∈ m ∨ q.1 = k := by
  intro m
  induction m with
  | nil =>
    intro k n q hq
    simp only [insertAdd] at hq
    rw [List.mem_singleton] at hq
    right
    rw [hq]
  | cons p rest ih =>
    intro k n q hq
    obtain ⟨k0, v⟩ := p
    simp only [insertAdd] at hq
    by_cases h : k0 = k
    · rw [if_pos h] at hq
      rcases List.mem_cons.mp hq with h1 | h1
      · right
        rw [h1]
        exact h
      · left
        exact List.mem_cons_of_mem _ h1
    · rw [if_neg h] at hq
      rcases List.mem_cons.mp hq with h1 | h1
      · left
        rw [h1]
        exact List.mem_cons_self _ _
      · rcases ih h1 with h2 | h2
        · left
          exact List.mem_cons_of_mem _ h2
        · right
          exact h2

theorem mem_foldl_insert :
    ∀ (ws : List String) (wm : WordMap) (q : String × Nat),
      q ∈ ws.foldl (fun w word => insertAdd w word 1) wm → q ∈ wm ∨ q.1 ∈ ws := by
  intro ws
  induction ws with
  | nil =>
    intro wm q hq
    left
    exact hq
  | cons word ws ih =>
    intro wm q hq
    simp only [List.foldl_cons] at hq
    rcases ih _ q hq with h1 | h1
    · rcases mem_insertAdd h1 with h2 | h2
      · left
        exact h2
      · right
        rw [h2]
        exact List.mem_cons_self _ _
    · right
      exact List.mem_cons_of_mem _ h1

theorem mem_updateLang :
    ∀ {m : LanguageMap} {lang : String} {f : WordMap → WordMap} {p : String × WordMap},
      p ∈ updateLang m lang f → p ∈ m ∨ p.2 = f (LMget m lang) := by
  intro m
  induction m with
  | nil =>
    intro lang f p hp
    simp only [updateLang] at hp
    rw [List.mem_singleton] at hp
    right
    rw [hp]
    rfl
  | cons r rest ih =>
    intro lang f p hp
    obtain ⟨k, v⟩ := r
    simp only [updateLang] at hp
    by_cases h : k = lang
    · rw [if_pos h] at hp
      rcases List.mem_cons.mp hp with h1 | h1
      · right
        rw [h1]
        simp [LMget, h]
      · left
        exact List.mem_cons_of_mem _ h1
    · rw [if_neg h] at hp
      rcases List.mem_cons.mp hp with h1 | h1
      · left
        rw [h1]
        exact List.mem_cons_self _ _
      · rcases ih h1 with h2 | h2
        · left
          exact List.mem_cons_of_mem _ h2
        · right
          rw [h2]
          simp [LMget, h]

theorem mem_LMget :
    ∀ {m : LanguageMap} {lang : String} {q : String × Nat},
      q ∈ LMget m lang → ∃ p ∈ m, q ∈ p.2 := by
  intro m
  induction m with
  | nil =>
    intro lang q hq
    exact absurd hq (List.not_mem_nil q)
  | cons r rest ih =>
    intro lang q hq
    obtain ⟨k, v⟩ := r
    simp only [LMget] at hq
    by_cases h : k = lang
    · rw [if_pos h] at hq
      exact ⟨(k, v), List.mem_cons_self _ _, hq⟩
    · rw [if_neg h] at hq
      rcases ih hq with ⟨p, hp, hqp⟩
      exact ⟨p, List.mem_cons_of_mem _ hp, hqp⟩

theorem mem_keys_insertAdd {m : WordMap} {k w : String} {n : Nat}
    (hw : w ∈ keysOf (insertAdd m k n)) : w ∈ keysOf m ∨ w = k := by
  rcases List.mem_map.mp hw with ⟨q, hq, rfl⟩
  rcases mem_insertAdd hq with h | h
  · left
    exact mem_keysOf h
  · right
    exact h

theorem WFw_insertAdd : ∀ (m : WordMap) (k : String) (n : Nat), WFw m → WFw (insertAdd m k n) := by
  intro m
  induction m with
  | nil =>
    intro k n _
    simp [insertAdd, WFw, keysOf]
  | cons p rest ih =>
    intro k n h
    obtain ⟨k0, v⟩ := p
    simp only [WFw, keysOf_cons, List.nodup_cons] at h
    simp only [insertAdd]
    by_cases hk : k0 = k
    · rw [if_pos hk]
      simp only [WFw, keysOf_cons, List.nodup_cons]
      exact h
    · rw [if_neg hk]
      simp only [WFw, keysOf_cons, List.nodup_cons]
      constructor
      · intro hmem
        rcases mem_keys_insertAdd hmem with h1 | h1
        · exact h.1 h1
        · exact hk h1
      · exact ih k n h.2

theorem WFw_foldl_insert :
    ∀ (ws : List String) (wm : WordMap), WFw wm →
      WFw (ws.foldl (fun w word => insertAdd w word 1) wm) := by
  intro ws
  induction ws with
  | nil =>
    intro wm h
    exact h
  | cons word ws ih =>
    intro wm h
    simp only [List.foldl_cons]
    exact ih _ (WFw_insertAdd wm word 1 h)

/-- All word maps stored in a `LanguageMap` are well-formed. -/
def ValuesWF (m : LanguageMap) : Prop := ∀ p ∈ m, WFw p.2

theorem WFw_LMget : ∀ {m : LanguageMap} {lang : String}, ValuesWF m → WFw (LMget m lang) := by
  intro m
  induction m with
  | nil =>
    intro lang _
    exact List.nodup_nil
  | cons r rest ih =>
    intro lang h
    obtain ⟨k, v⟩ := r
    simp only [LMget]
    by_cases hk : k = lang
    · rw [if_pos hk]
      exact h (k, v) (List.mem_cons_self _ _)
    · rw [if_neg hk]
      exact ih (fun q hq => h q (List.mem_cons_of_mem _ hq))

theorem ValuesWF_updateLang {m : LanguageMap} {lang : String} {f : WordMap → WordMap}
    (hf : ∀ wm, WFw wm → WFw (f wm)) (h : ValuesWF m) : ValuesWF (updateLang m lang f) := by
  intro p hp
  rcases mem_updateLang hp with h1 | h1
  · exact h p h1
  · rw [h1]
    exact hf _ (WFw_LMget h)

theorem ValuesWF_foldl_insertTweet :
    ∀ (ts : List Tweet) (m : LanguageMap), ValuesWF m → ValuesWF (ts.foldl insertTweet m) := by
  intro ts
  induction ts with
  | nil =>
    intro m h
    exact h
  | cons t ts ih =>
    intro m h
    simp only [List.foldl_cons]
    exact ih _ (ValuesWF_updateLang (fun wm hwm => WFw_foldl_insert _ wm hwm) h)

theorem mem_tweetWords {t : Tweet} {w : String} (h : w ∈ tweetWords t.text) :
    ∃ tok ∈ rawTokens t.text, w = cleanup_word tok ∧ word_qualifies w = true := by
  unfold tweetWords at h
  rcases List.mem_filter.mp h with ⟨hmem, hqual⟩
  rcases List.mem_map.mp hmem with ⟨tok, htok, rfl⟩
  exact ⟨tok, htok, rfl, hqual⟩

theorem keyProv_foldl_insertTweet (P : String → Prop) :
    ∀ (ts : List Tweet) (m : LanguageMap),
      (∀ p ∈ m, ∀ q ∈ p.2, P q.1) →
      (∀ t ∈ ts, ∀ w ∈ tweetWords t.text, P w) →
      ∀ p ∈ ts.foldl insertTweet m, ∀ q ∈ p.2, P q.1 := by
  intro ts
  induction ts with
  | nil =>
    intro m h _ p hp q hq
    exact h p hp q hq
  | cons t ts ih =>
    intro m h hts p hp q hq
    simp only [List.foldl_cons] at hp
    refine ih (insertTweet m t) ?_ (fun u hu => hts u (List.mem_cons_of_mem _ hu)) p hp q hq
    intro p2 hp2 q2 hq2
    rcases mem_updateLang hp2 with h1 | h1
    · exact h p2 h1 q2 hq2
    · rw [h1] at hq2
      rcases mem_foldl_insert _ _ _ hq2 with h2 | h2
      · rcases mem_LMget h2 with ⟨r, hr, hqr⟩
        exact h r hr q2 hqr
      · exact hts t (List.mem_cons_self _ _) q2.1 h2

/-- C6 counterexample: one tweet with tokens `Hello` and `hello` produces
a word map holding two distinct keys that differ only in casing, and the
token `!„x„` produces the key `„x`, which is not a fixed point of
`cleanup_word` (the symbol trim exposed a typographic quote that a second
cleanup would strip). -/
theorem keys_normalized_counterexample :
    (("Hello", 1) ∈ LMget (processTweetsLocal [⟨"en", "Hello hello"⟩]) "en"
      ∧ ("hello", 1) ∈ LMget (processTweetsLocal [⟨"en", "Hello hello"⟩]) "en"
      ∧ "Hello" ≠ "hello"
      ∧ lowerStr "Hello" = lowerStr "hello")
    ∧ (("„x", 1) ∈ LMget (processTweetsLocal [⟨"en", "!„x„"⟩]) "en"
      ∧ cleanup_word "„x" ≠ "„x") := by decide

/-- C6 amended: in every word map produced by the grouping loop, keys are
pairwise distinct, and every key was inserted already normalized: it is
`cleanup_word` of some space-split token of some processed tweet and it
qualifies. (Keys need not be `cleanup_word` fixed points, and two keys may
differ only in casing — see the counterexample.) -/
theorem keys_normalized_amended (tweets : List Tweet) :
    (∀ p ∈ processTweetsLocal tweets, WFw p.2)
    ∧ (∀ p ∈ processTweetsLocal tweets, ∀ q ∈ p.2,
        ∃ t ∈ tweets, ∃ tok ∈ rawTokens t.text,
          q.1 = cleanup_word tok ∧ word_qualifies q.1 = true) := by
  constructor
  · exact fun p hp =>
      ValuesWF_foldl_insertTweet tweets [] (fun r hr => absurd hr (List.not_mem_nil r)) p hp
  · intro p hp q hq
    refine keyProv_foldl_insertTweet
      (fun w => ∃ t ∈ tweets, ∃ tok ∈ rawTokens t.text,
        w = cleanup_word tok ∧ word_qualifies w = true)
      tweets [] ?_ ?_ p hp q hq
    · intro r hr
      exact absurd hr (List.not_mem_nil r)
    · intro t ht w hw
      rcases mem_tweetWords hw with ⟨tok, htok, heq, hqual⟩
      exact ⟨t, ht, tok, htok, heq, hqual⟩

/-- Witness for the amended C6 at the first scenario tweet. -/
theorem keys_normalized_amended_witness :
    WFw [("hello", 2), ("world", 1)]
    ∧ ∃ t ∈ [tweetA], ∃ tok ∈ rawTokens t.text,
        "hello" = cleanup_word tok ∧ word_qualifies "hello" = true :=
  ⟨(keys_normalized_amended [tweetA]).1 ("en", [("hello", 2), ("world", 1)]) (by decide),
    (keys_normalized_amended [tweetA]).2 ("en", [("hello", 2), ("world", 1)]) (by decide)
      ("hello", 2) (by decide)⟩

/-- C7: `read_file` returns an error exactly when the open/decompress
prelude does (and propagates that error); whenever decompression succeeds
it returns `Ok` holding precisely the records of the lines that decode
successfully, in file order — a line that fails decoding is skipped
without failing the file. -/
theorem read_file_spec (decode : String → Option Tweet) (r : Except String String) :
    (∀ e, r = Except.error e → read_file decode r = Except.error e)
    ∧ (∀ s, r = Except.ok s →
        read_file decode r = Except.ok ((rustLines s).filterMap decode)
        ∧ ∀ t : Tweet,
            t ∈ (rustLines s).filterMap decode ↔ ∃ l ∈ rustLines s, decode l = some t) := by
  constructor
  · intro e he
    rw [he]
    rfl
  · intro s hs
    rw [hs]
    refine ⟨rfl, ?_⟩
    intro t
    exact List.mem_filterMap

/-- A concrete record decoder for the C7 witness: accepts exactly the
line `good`. -/
def decodeStub (l : String) : Option Tweet :=
  if l = "good" then some ⟨"en", "hi"⟩ else none

/-- Witness for C7: a successful read with one undecodable line in the
middle, and a failing read. -/
theorem read_file_spec_witness :
    read_file decodeStub (Except.ok "good\nbad\ngood") =
      Except.ok ((rustLines "good\nbad\ngood").filterMap decodeStub)
    ∧ (rustLines "good\nbad\ngood").filterMap decodeStub = [⟨"en", "hi"⟩, ⟨"en", "hi"⟩]
    ∧ read_file decodeStub (Except.error "io") = Except.error "io" :=
  ⟨((read_file_spec decodeStub (Except.ok "good\nbad\ngood")).2 "good\nbad\ngood" rfl).1,
    by decide,
    (read_file_spec decodeStub (Except.error "io")).1 "io" rfl⟩

/-- C10: the Zalgo ratio of `word_qualifies` is evaluated only when every
earlier arm declined, and under that guard the token is nonempty, so the
ratio's denominator (the character count) is nonzero; on the guarded path
`word_qualifies` is decided exactly by the Zalgo test and the `RT`
literal. -/
theorem zalgo_guard_safe (s : String) (h : zalgoGuardReached s = true) :
    1 ≤ s.data.length ∧ s.data.length ≠ 0
    ∧ word_qualifies s = (!is_zalgo s && !(s == "RT")) := by
  unfold zalgoGuardReached at h
  simp only [Bool.and_eq_true, Bool.not_eq_true'] at h
  obtain ⟨⟨⟨⟨⟨⟨⟨⟨h1, h2⟩, h3⟩, h4⟩, h5⟩, h6⟩, h7⟩, h8⟩, h9⟩ := h
  have hlen : 1 ≤ s.data.length := by
    unfold isShort at h1
    simp only [Bool.or_eq_false_iff] at h1
    have hne : s.data ≠ [] := by
      intro hnil
      rw [hnil] at h1
      simp at h1
    have := List.length_pos.mpr hne
    omega
  refine ⟨hlen, by omega, ?_⟩
  unfold word_qualifies
  simp only [h1, h2, h3, h4, h5, h6, h7, h8, h9, Bool.false_eq_true, if_false]
  by_cases hz : is_zalgo s <;> by_cases hr : s == "RT" <;> simp [hz, hr]

/-- Witness for C10 at the token `ab`. -/
theorem zalgo_guard_safe_witness :
    zalgoGuardReached "ab" = true
    ∧ (1 ≤ (("ab" : String)).data.length ∧ (("ab" : String)).data.length ≠ 0
      ∧ word_qualifies "ab" = (!is_zalgo "ab" && !("ab" == "RT"))) :=
  ⟨by decide, zalgo_guard_safe "ab" (by decide)⟩

theorem boolFalse {b : Bool} (h : ¬ b = true) : b = false := by
  cases b
  · rfl
  · exact absurd rfl h

theorem asciiLetter_range {c : Char} (h : asciiLetter c = true) :
    (65 ≤ c.toNat ∧ c.toNat ≤ 90) ∨ (97 ≤ c.toNat ∧ c.toNat ≤ 122) := by
  unfold asciiLetter at h
  simp only [Bool.or_eq_true, Bool.and_eq_true, decide_eq_true_eq] at h
  exact h

theorem letter_ne_char {c : Char} (h : asciiLetter c = true) {x : Char}
    (hx : x.toNat < 65 ∨ (90 < x.toNat ∧ x.toNat < 97) ∨ 122 < x.toNat) :
    (c == x) = false := by
  rw [beq_eq_false_iff_ne]
  intro he
  rcases asciiLetter_range h with ⟨ha, hb⟩ | ⟨ha, hb⟩ <;>
    (rw [he] at ha hb; omega)

theorem symQual_toNat : SYMBOLS_QUALIFY.data.map Char.toNat =
    [33, 64, 35, 36, 37, 94, 38, 42, 40, 41, 95, 45, 43, 61, 60, 44, 62, 46, 63, 47,
      39, 34, 123, 91, 125, 93, 92, 124, 96, 126, 9, 13, 10] := by decide

theorem letter_not_symQual {c : Char} (h : asciiLetter c = true) :
    charIn SYMBOLS_QUALIFY c = false := by
  unfold charIn
  apply decide_eq_false
  intro hc
  have h2 : c.toNat ∈ SYMBOLS_QUALIFY.data.map Char.toNat := List.mem_map_of_mem Char.toNat hc
  rw [symQual_toNat] at h2
  simp only [List.mem_cons, List.not_mem_nil, or_false] at h2
  rcases asciiLetter_range h with ⟨ha, hb⟩ | ⟨ha, hb⟩ <;> omega

theorem letter_not_digit {c : Char} (h : asciiLetter c = true) : isNumericChar c = false := by
  apply boolFalse
  intro hb
  simp only [isNumericChar, asciiDigit, Bool.and_eq_true, decide_eq_true_eq] at hb
  rcases asciiLetter_range h with ⟨ha, hc⟩ | ⟨ha, hc⟩ <;> omega

theorem letter_not_emojiChar {c : Char} (h : asciiLetter c = true) :
    ((0x1F3FB ≤ c.toNat && c.toNat ≤ 0x1F3FF)
      || (0x1F600 ≤ c.toNat && c.toNat ≤ 0x1F64F)) = false := by
  apply boolFalse
  intro hb
  simp only [Bool.or_eq_true, Bool.and_eq_true, decide_eq_true_eq] at hb
  rcases asciiLetter_range h with ⟨ha, hc⟩ | ⟨ha, hc⟩ <;> rcases hb with ⟨x, y⟩ | ⟨x, y⟩ <;> omega

theorem letter_not_control {c : Char} (h : asciiLetter c = true) : isControlChar c = false := by
  apply boolFalse
  intro hb
  simp only [isControlChar, Bool.or_eq_true, decide_eq_true_eq, beq_iff_eq] at hb
  rcases asciiLetter_range h with ⟨ha, hc⟩ | ⟨ha, hc⟩ <;> rcases hb with x | x <;> omega

theorem letter_not_zalgoChar {c : Char} (h : asciiLetter c = true) : isZalgoChar c = false := by
  apply boolFalse
  intro hb
  simp only [isZalgoChar, Bool.and_eq_true, decide_eq_true_eq] at hb
  rcases asciiLetter_range h with ⟨ha, hc⟩ | ⟨ha, hc⟩ <;> omega

/-- C5 counterexample: `RT` is a token of two ordinary ASCII letters, yet
`word_qualifies` rejects it, so the claim's universal acceptance of
two-ASCII-letter tokens fails (it contradicts the claim's own `RT`
rejection). -/
theorem word_qualifies_examples_counterexample :
    asciiLetter 'R' = true ∧ asciiLetter 'T' = true
    ∧ (⟨['R', 'T']⟩ : String) = "RT"
    ∧ word_qualifies (⟨['R', 'T']⟩ : String) = false := by decide

/-- C5 amended: `word_qualifies` rejects `@alice`, `http://x.co`, `RT` and
the single emoji scalar `U+1F600`, and accepts `alice`, `x.co`, `Rt` and
every token of two ordinary ASCII letters other than the literal `RT`. -/
theorem word_qualifies_examples (c1 c2 : Char) (h1 : asciiLetter c1 = true)
    (h2 : asciiLetter c2 = true) (hne : (⟨[c1, c2]⟩ : String) ≠ "RT") :
    word_qualifies "@alice" = false ∧ word_qualifies "http://x.co" = false
    ∧ word_qualifies "RT" = false ∧ word_qualifies "😀" = false
    ∧ word_qualifies "alice" = true ∧ word_qualifies "x.co" = true
    ∧ word_qualifies "Rt" = true
    ∧ word_qualifies (⟨[c1, c2]⟩ : String) = true := by
  refine ⟨by decide, by decide, by decide, by decide, by decide, by decide, by decide, ?_⟩
  have hdata : (⟨[c1, c2]⟩ : String).data = [c1, c2] := rfl
  have hshort : isShort (⟨[c1, c2]⟩ : String) = false := rfl
  have hat : startsWithChar '@' (⟨[c1, c2]⟩ : String) = false := letter_ne_char h1 (by decide)
  have hhash : startsWithChar '#' (⟨[c1, c2]⟩ : String) = false := letter_ne_char h1 (by decide)
  have hamp : startsWithChar '&' (⟨[c1, c2]⟩ : String) = false := letter_ne_char h1 (by decide)
  have hhtml : (startsWithChar '&' (⟨[c1, c2]⟩ : String)
      && endsWithChar ';' (⟨[c1, c2]⟩ : String)) = false := by
    rw [hamp, Bool.false_and]
  have hcolon : (c2 == ':') = false := letter_ne_char h2 (by decide)
  have htail : schemeTail [c2] = false := by simp [schemeTail, hcolon]
  have hparse : urlParseOk (⟨[c1, c2]⟩ : String) = false := by
    have hred : urlParseOk (⟨[c1, c2]⟩ : String) = (asciiLetter c1 && schemeTail [c2]) := rfl
    rw [hred, htail, Bool.and_false]
  have hurl : is_url (⟨[c1, c2]⟩ : String) = false := by
    unfold is_url
    rw [hparse, Bool.false_or, List.any_eq_false]
    intro p hp
    simp only [urlStarts, List.mem_cons, List.not_mem_nil, or_false] at hp
    rw [hdata]
    rcases hp with rfl | rfl | rfl | rfl | rfl
    · rw [show (("http://" : String)).data = ['h', 't', 't', 'p', ':', '/', '/'] from rfl]
      simp [List.isPrefixOf]
    · rw [show (("https://" : String)).data = ['h', 't', 't', 'p', 's', ':', '/', '/'] from rfl]
      simp [List.isPrefixOf]
    · rw [show (("ftp://" : String)).data = ['f', 't', 'p', ':', '/', '/'] from rfl]
      simp [List.isPrefixOf]
    · rw [show (("sftp://" : String)).data = ['s', 'f', 't', 'p', ':', '/', '/'] from rfl]
      simp [List.isPrefixOf]
    · rw [show (("data:" : String)).data = ['d', 'a', 't', 'a', ':'] from rfl]
      simp [List.isPrefixOf]
  have hnum : (⟨[c1, c2]⟩ : String).data.all isNumericChar = false := by
    rw [hdata]
    simp [letter_not_digit h1]
  have hemo : is_emoji (⟨[c1, c2]⟩ : String) = false := by
    unfold is_emoji
    rw [hdata]
    simp only [List.all_cons]
    rw [letter_not_emojiChar h1, Bool.false_and]
  have hctrl : (⟨[c1, c2]⟩ : String).data.all isControlChar = false := by
    rw [hdata]
    simp [letter_not_control h1]
  have hsym : is_only_symbols (⟨[c1, c2]⟩ : String) = false := by
    unfold is_only_symbols
    rw [hdata]
    simp [letter_not_symQual h1]
  have hzal : is_zalgo (⟨[c1, c2]⟩ : String) = false := by
    unfold is_zalgo
    rw [hdata]
    simp [List.countP_cons, letter_not_zalgoChar h1, letter_not_zalgoChar h2]
  have hrt : ((⟨[c1, c2]⟩ : String) == "RT") = false := beq_eq_false_iff_ne.mpr hne
  unfold word_qualifies
  simp only [hshort, hat, hhash, hurl, hnum, hemo, hctrl, hhtml, hsym, hzal, hrt,
    Bool.false_eq_true, if_false]

/-- Witness for the amended C5 at the two-letter token `ab`. -/
theorem word_qualifies_examples_witness :
    asciiLetter 'a' = true ∧ asciiLetter 'b' = true ∧ (⟨['a', 'b']⟩ : String) ≠ "RT"
    ∧ (word_qualifies "@alice" = false ∧ word_qualifies "http://x.co" = false
      ∧ word_qualifies "RT" = false ∧ word_qualifies "😀" = false
      ∧ word_qualifies "alice" = true ∧ word_qualifies "x.co" = true
      ∧ word_qualifies "Rt" = true
      ∧ word_qualifies (⟨['a', 'b']⟩ : String) = true) :=
  ⟨by decide, by decide, by decide,
    word_qualifies_examples 'a' 'b' (by decide) (by decide) (by decide)⟩

end Twc
